import Mathlib

/-!
Verification of the beancount portfolio-returns engine
(`src/python/beancount/projects/returns.py`) against its specification.

The Python source is shallowly embedded: directives, postings and positions
become inductive/structure types; Python `Decimal` and `float` quantities are
modelled as `ℚ`; `datetime.date` is modelled as `ℤ` (a day number, so that
`(date_last - date_first).days` becomes plain subtraction); Python dicts
become association lists with `List.lookup`; Python sets of account names
become `List String` with membership semantics; raising `ValueError` /
`StopIteration` / `AssertionError` becomes returning an error value.

Collaborator code that is not part of the two source files
(`beancount.core.inventory`, `beancount.core.getters`,
`beancount.core.account_types`, `beancount.ops.prices`, the `re` module and
IEEE-754 `**`) is either modelled from the spec (marked `Modelled from the
spec:`) or abstracted as an explicit function parameter.
-/

/-- Dates are modelled as integer day numbers, so that the Python expression
`(date_last - date_first).days` becomes ordinary integer subtraction. -/
abbrev Date := Int

/-- Modelled from the spec: the optional cost-basis lot of a position,
`cost_lot: optional(currency, decimal unit_cost, acquisition_date)`
(spec section 3; `beancount.core.position` is not under `src/`). -/
structure CostLot where
  currency : String
  unit_cost : ℚ
  acq_date : Date
deriving DecidableEq

/-- Modelled from the spec: the lot of a position, a currency together with an
optional cost basis.  The Python code accesses `pos.lot.currency` and
`pos.lot.cost`. -/
structure Lot where
  currency : String
  cost : Option CostLot
deriving DecidableEq

/-- Modelled from the spec: a position, a quantity of a currency optionally
tagged with a cost-basis lot (spec section 3).  The Python code accesses
`pos.lot` and `pos.number`. -/
structure Position where
  lot : Lot
  number : ℚ
deriving DecidableEq

/-- One account-leg of a transaction: `(account: string, position: Position)`
(spec section 3, `Posting`). -/
structure Posting where
  account : String
  position : Position
deriving DecidableEq

/-- A directive: only the Transaction variant carries postings; all other
directive kinds are collapsed into `other`, which keeps its date and the set
of account names it mentions (used by the entry filter). -/
inductive Directive where
  | txn (date : Date) (postings : List Posting)
  | other (date : Date) (accounts : List String)
deriving DecidableEq

/-- The date of a directive. -/
def Directive.date : Directive → Date
  | .txn d _ => d
  | .other d _ => d

/-- The postings of a directive (empty for non-transactions). -/
def Directive.postings : Directive → List Posting
  | .txn _ ps => ps
  | .other _ _ => []

/-- Whether a directive is a Transaction (`isinstance(entry, data.Transaction)`). -/
def Directive.isTxn : Directive → Bool
  | .txn _ _ => true
  | .other _ _ => false

/-- Modelled from the spec: `getters.get_entry_accounts` (the `getters` module
is not under `src/`): the set of account names a directive mentions — for a
Transaction the accounts of its postings. -/
def entryAccounts : Directive → List String
  | .txn _ ps => ps.map Posting.account
  | .other _ accounts => accounts

/-- Modelled from the spec: an Inventory is "a mapping from
`(currency, cost_lot)` to accumulated quantity" (spec section 3;
`beancount.core.inventory` is not under `src/`).  Represented as a list of
positions with at most one position per lot. -/
abbrev Inventory := List Position

/-- Modelled from the spec: `Inventory.add_position` — quantities for the same
lot key "are always summed (never duplicated as separate entries)"
(spec section 3). -/
def Inventory.add_position (inv : Inventory) (pos : Position) : Inventory :=
  if inv.any (fun q => q.lot = pos.lot) then
    inv.map (fun q => if q.lot = pos.lot then ⟨q.lot, q.number + pos.number⟩ else q)
  else
    inv ++ [pos]

/-! ## Account classification (`find_matching`, returns.py lines 54-92)

`re.compile(related_regexp).match` is abstracted as a boolean predicate
`matchp : String → Bool` (the `re` module is external; the code only uses the
truthiness of the match object).  Likewise
`account_types.is_income_statement_account(account, acc_types)` is abstracted
as `isIncome : String → Bool` (spec section 6: supplied externally). -/

/-- Whether a transaction has at least one posting whose account matches the
pattern (`any(match(posting.account) for posting in entry.postings)`), and is
a Transaction at all. -/
def isMatchingTxn (matchp : String → Bool) : Directive → Bool
  | .txn _ postings => postings.any (fun p => matchp p.account)
  | .other _ _ => false

/-- One step of the posting-classification loop inside `find_matching`
(returns.py lines 81-88): state is `(accounts_assets, accounts_intflows,
accounts_extflows)`. -/
def classifyPosting (isIncome matchp : String → Bool)
    (s : List String × List String × List String) (p : Posting) :
    List String × List String × List String :=
  if matchp p.account then
    if isIncome p.account then (s.1, s.2.1.insert p.account, s.2.2)
    else (s.1.insert p.account, s.2.1, s.2.2)
  else (s.1, s.2.1, s.2.2.insert p.account)

/-- One step of the entry loop of `find_matching` (returns.py lines 75-88).
State is `(matching_entries, (accounts_assets, accounts_intflows,
accounts_extflows))`. -/
def findMatchingStep (isIncome matchp : String → Bool)
    (st : List Directive × List String × List String × List String)
    (entry : Directive) :
    List Directive × List String × List String × List String :=
  if isMatchingTxn matchp entry then
    (st.1 ++ [entry], entry.postings.foldl (classifyPosting isIncome matchp) st.2)
  else st

/-- Embedding of `find_matching` (returns.py lines 54-92): returns the list of
matching transactions and the triplet
`(accounts_assets, accounts_intflows, accounts_extflows)`. -/
def find_matching (entries : List Directive) (isIncome matchp : String → Bool) :
    List Directive × List String × List String × List String :=
  entries.foldl (findMatchingStep isIncome matchp) ([], [], [], [])

/-! ## Balance accumulation (`sum_balances_for_accounts`, returns.py lines 95-109) -/

/-- Embedding of `sum_balances_for_accounts` (returns.py lines 95-109):
adds to `balance` the positions of the postings of `entry` whose account lies
in `accounts`; non-transactions are ignored. -/
def sum_balances_for_accounts (balance : Inventory) (entry : Directive)
    (accounts : List String) : Inventory :=
  match entry with
  | .txn _ postings =>
      postings.foldl
        (fun bal p =>
          if accounts.contains p.account then bal.add_position p.position else bal)
        balance
  | .other _ _ => balance

/-! ## Period segmentation (`segment_periods`, returns.py lines 112-238) -/

/-- One emitted period: `(period_begin, period_end, balance_begin, balance_end)`
(returns.py lines 131-136). -/
structure Period where
  period_begin : Date
  period_end : Date
  balance_begin : Inventory
  balance_end : Inventory
deriving DecidableEq

/-- The two exceptional exits of `segment_periods`: the explicit `ValueError`
of lines 143-145, and the uncaught `StopIteration` that escapes from
`entry = next(iter_entries)` on line 156 when no entry passes the asset
filter. -/
inductive SegError where
  | valueError
  | stopIteration
deriving DecidableEq

/-- The date-ordering guard of returns.py lines 143-145:
`date_begin and date_end and date_begin >= date_end`
(`datetime.date` objects are always truthy, so this is exactly "both are
given and begin is at or after end"). -/
def badDates : Option Date → Option Date → Bool
  | some b, some e => b ≥ e
  | _, _ => false

/-- The guard `date_end and entry_date >= date_end` used on lines 167 and 194. -/
def reachedEnd (de : Option Date) (d : Date) : Bool :=
  match de with
  | some e => d ≥ e
  | none => false

/-- The filter of returns.py lines 153-155: keep entries whose accounts
intersect `accounts_assets` (`get_entry_accounts(entry) & accounts_assets`). -/
def relevantEntry (accounts_assets : List String) (e : Directive) : Bool :=
  (entryAccounts e).any accounts_assets.contains

/-- The predicate of returns.py lines 148-150: a Transaction with at least one
posting whose account is outside `accounts_related`. -/
def isExternalFlowEntry (accounts_related : List String) : Directive → Bool
  | .txn _ postings => postings.any (fun p => !(accounts_related.contains p.account))
  | .other _ _ => false

/-- The skip loop of returns.py lines 161-173: consume entries dated before
`date_begin` (and before `date_end`), accumulating their asset postings.
Returns `.inl balance` when the stream is exhausted (the `StopIteration`
branch of line 171) and `.inr (balance, entry, rest)` when the loop breaks
with the current, still unconsumed, entry. -/
def skipLoop (db : Date) (de : Option Date) (accounts_assets : List String)
    (entry : Directive) (rest : List Directive) (balance : Inventory) :
    Inventory ⊕ (Inventory × Directive × List Directive) :=
  if entry.date ≥ db then .inr (balance, entry, rest)
  else if reachedEnd de entry.date then .inr (balance, entry, rest)
  else
    match rest with
    | [] => .inl (sum_balances_for_accounts balance entry accounts_assets)
    | e :: r => skipLoop db de accounts_assets e r
        (sum_balances_for_accounts balance entry accounts_assets)

/-- How the inner loop of `segment_periods` (returns.py lines 190-209) exits:
either at an external-flow boundary entry (not yet consumed, lines 192-193),
or "done" (date_end reached on lines 194-197, or the stream exhausted on
lines 201-207). -/
inductive InnerExit where
  | boundary (entry : Directive) (rest : List Directive)
  | done
deriving DecidableEq

/-- The inner loop of `segment_periods` (returns.py lines 190-209): consume
internal-flow entries, accumulating the balance, until a boundary or a "done"
condition.  Returns the final `period_end`, the accumulated balance, and the
exit kind.  On the `StopIteration` exit `period_end` is `date_end` when given,
else the date of the last consumed entry (lines 203-207). -/
def innerLoop (de : Option Date) (accounts_related accounts_assets : List String)
    (entry : Directive) (rest : List Directive) (balance : Inventory) :
    Date × Inventory × InnerExit :=
  if isExternalFlowEntry accounts_related entry then
    (entry.date, balance, .boundary entry rest)
  else if reachedEnd de entry.date then
    (de.getD entry.date, balance, .done)
  else
    match rest with
    | [] => (de.getD entry.date,
             sum_balances_for_accounts balance entry accounts_assets, .done)
    | e :: r => innerLoop de accounts_related accounts_assets e r
        (sum_balances_for_accounts balance entry accounts_assets)

/-- Helper for termination and for the endpoint lemmas: when the inner loop
exits at a boundary, the boundary entry together with the remaining stream is
a suffix of the input stream. -/
theorem innerLoop_boundary_suffix (de : Option Date)
    (accounts_related accounts_assets : List String) :
    ∀ (rest : List Directive) (entry : Directive) (balance : Inventory)
      (pe : Date) (b : Inventory) (be : Directive) (brest : List Directive),
      innerLoop de accounts_related accounts_assets entry rest balance =
        (pe, b, .boundary be brest) →
      (be :: brest) <:+ (entry :: rest) := by
  intro rest
  induction rest with
  | nil =>
      intro entry balance pe b be brest h
      rw [innerLoop] at h
      split at h
      · simp only [Prod.mk.injEq, InnerExit.boundary.injEq] at h
        obtain ⟨_, _, h1, h2⟩ := h
        subst h1; subst h2
        exact List.suffix_refl _
      · split at h
        · simp at h
        · simp at h
  | cons x xs ih =>
      intro entry balance pe b be brest h
      rw [innerLoop] at h
      split at h
      · simp only [Prod.mk.injEq, InnerExit.boundary.injEq] at h
        obtain ⟨_, _, h1, h2⟩ := h
        subst h1; subst h2
        exact List.suffix_refl _
      · split at h
        · simp at h
        · exact (ih x _ pe b be brest h).trans (List.suffix_cons _ _)

/-- Length consequence of `innerLoop_boundary_suffix`, used for termination of
the outer loop. -/
theorem innerLoop_boundary_length (de : Option Date)
    (accounts_related accounts_assets : List String)
    (rest : List Directive) (entry : Directive) (balance : Inventory)
    (pe : Date) (b : Inventory) (be : Directive) (brest : List Directive)
    (h : innerLoop de accounts_related accounts_assets entry rest balance =
        (pe, b, .boundary be brest)) :
    brest.length ≤ rest.length := by
  have hs := innerLoop_boundary_suffix de accounts_related accounts_assets
    rest entry balance pe b be brest h
  have := hs.length_le
  simpa using this

/-- The main loop of `segment_periods` (returns.py lines 178-238): each
iteration snapshots the running balance, runs the inner loop, appends the
resulting period, and either stops ("done"), absorbs the boundary entry and
continues (line 222-236), or — when the stream ends while absorbing the
boundary and `date_end` is given — appends one final no-change period
(lines 229-234). -/
def outerLoop (de : Option Date) (accounts_related accounts_assets : List String)
    (entry : Directive) (rest : List Directive) (balance : Inventory)
    (period_begin : Date) (periods : List Period) : List Period :=
  match h : innerLoop de accounts_related accounts_assets entry rest balance with
  | (pe, bal1, .done) =>
      periods ++ [⟨period_begin, pe, balance, bal1⟩]
  | (pe, bal1, .boundary bentry brest) =>
      let bal2 := sum_balances_for_accounts bal1 bentry accounts_assets
      match brest with
      | [] =>
          (periods ++ [⟨period_begin, pe, balance, bal1⟩]) ++
            (match de with
             | some d => [⟨pe, d, bal2, bal2⟩]
             | none => [])
      | e :: r =>
          outerLoop de accounts_related accounts_assets e r bal2 pe
            (periods ++ [⟨period_begin, pe, balance, bal1⟩])
termination_by rest.length
decreasing_by
  have := innerLoop_boundary_length de accounts_related accounts_assets
    rest entry balance pe bal1 bentry (e :: r) h
  simp only [List.length_cons] at this
  omega

/-- Embedding of `segment_periods` (returns.py lines 112-238).  The result is
`.error .valueError` for the date-ordering check of lines 143-145,
`.error .stopIteration` when no entry passes the asset filter (the uncaught
`StopIteration` from `next` on line 156), and otherwise the list of periods. -/
def segment_periods (entries : List Directive)
    (accounts_assets accounts_intflows : List String)
    (date_begin date_end : Option Date) : Except SegError (List Period) :=
  if badDates date_begin date_end then .error .valueError
  else
    match entries.filter (relevantEntry accounts_assets) with
    | [] => .error .stopIteration
    | entry :: rest =>
      let accounts_related := accounts_assets ++ accounts_intflows
      match date_begin with
      | some db =>
          match skipLoop db date_end accounts_assets entry rest [] with
          | .inl balance =>
              .ok [⟨db, date_end.getD db, balance, balance⟩]
          | .inr (balance, e, r) =>
              .ok (outerLoop date_end accounts_related accounts_assets
                    e r balance db [])
      | none =>
          .ok (outerLoop date_end accounts_related accounts_assets
                entry rest [] entry.date [])

/-! ## Period returns (`compute_period_returns`, returns.py lines 241-295)

`prices.get_inventory_market_value` (the `prices` module is not under `src/`)
is abstracted as an explicit function parameter
`mktval : Inventory → Date → Inventory`, standing for the market valuation of
an inventory at a date under a fixed price map.  `Decimal` arithmetic and the
final `float(end / begin)` conversion are modelled exactly in `ℚ`. -/

/-- The loop of returns.py lines 270-278 building `single` for one boundary:
positions held at cost are skipped (only logged, line 274); a plain position
is recorded under its currency, with the `assert` of line 277 (at most one
plain position per currency) modelled as returning `none`. -/
def buildSingle (positions : List Position) (acc : List (String × ℚ)) :
    Option (List (String × ℚ)) :=
  match positions with
  | [] => some acc
  | pos :: rest =>
      match pos.lot.cost with
      | some _ => buildSingle rest acc
      | none =>
          if (acc.lookup pos.lot.currency).isSome then none
          else buildSingle rest (acc ++ [(pos.lot.currency, pos.number)])

/-- The currency-union-and-ratio computation of returns.py lines 264-295,
taking the two market-valued boundary inventories: build `single_begin` and
`single_end`, take the union of their currencies, and for each currency return
`1.0` when the begin amount is `ZERO` (also when absent), else `end / begin`. -/
def periodReturnsOf (mktvalue_begin mktvalue_end : Inventory) :
    Option (List (String × ℚ)) := do
  let single_begin ← buildSingle mktvalue_begin []
  let single_end ← buildSingle mktvalue_end []
  let currencies := (single_begin.map Prod.fst ++ single_end.map Prod.fst).dedup
  some (currencies.map (fun c =>
    let b := (single_begin.lookup c).getD 0
    let e := (single_end.lookup c).getD 0
    (c, if b = 0 then 1 else e / b)))

/-- Embedding of `compute_period_returns` (returns.py lines 241-295): valuate
both boundary balances via the abstracted valuer, then compute the
per-currency returns; also returns the pair of market-value inventories.
`none` models the `AssertionError` of line 277. -/
def compute_period_returns (date_begin date_end : Date)
    (balance_begin balance_end : Inventory)
    (mktval : Inventory → Date → Inventory) :
    Option (List (String × ℚ) × (Inventory × Inventory)) :=
  let mktvalue_begin := mktval balance_begin date_begin
  let mktvalue_end := mktval balance_end date_end
  (periodReturnsOf mktvalue_begin mktvalue_end).map
    (fun rets => (rets, (mktvalue_begin, mktvalue_end)))

/-! ## Annualization (`annualize_returns`, returns.py lines 298-321)

IEEE-754 `**` is abstracted as a function parameter `fpow : ℚ → ℚ → ℚ`;
the float literal `365.` and the division `365. / num_days` are modelled
exactly in `ℚ`. -/

/-- The `ValueError` of returns.py lines 314-316. -/
inductive AnnError where
  | invalidPeriod
deriving DecidableEq

/-- Embedding of `annualize_returns` (returns.py lines 298-321):
`num_days = (date_last - date_first).days`; when `num_days == 0` every return
must equal `1` (else the `ValueError` is raised) and the exponent defaults to
`1.`; otherwise the exponent is `365. / num_days`; the result maps each
return through `fpow` (modelling `return_ ** exponent`). -/
def annualize_returns (fpow : ℚ → ℚ → ℚ) (returns : List (String × ℚ))
    (date_first date_last : Date) : Except AnnError (List (String × ℚ)) :=
  let num_days := date_last - date_first
  if num_days = 0 then
    if returns.all (fun p => p.2 = 1) then
      .ok (returns.map (fun p => (p.1, fpow p.2 1)))
    else .error .invalidPeriod
  else
    .ok (returns.map (fun p => (p.1, fpow p.2 (365 / (num_days : ℚ)))))

/-! ## Total returns (`compute_returns`, returns.py lines 324-413)

The validation pass of lines 363-369 and the per-period logging (including the
log-only `annualize_returns` call on line 388) only write to the log and do
not affect the result, so they are not modelled.  `options_map` is unused by
the function body and dropped. -/

/-- The ways `compute_returns` can fail: a propagated `segment_periods`
exception, a propagated `AssertionError` from `compute_period_returns`, or
the `IndexError` of `periods[0]` on line 411 (unreachable in practice since
`segment_periods` never returns an empty list). -/
inductive CRError where
  | seg (e : SegError)
  | assertFail
  | emptyPeriods
deriving DecidableEq

/-- The per-period returns collection of returns.py lines 380-386:
`all_returns` is the list of per-period currency-to-return mappings. -/
def periodsReturns (mktval : Inventory → Date → Inventory)
    (periods : List Period) : Option (List (List (String × ℚ))) :=
  periods.mapM (fun p =>
    (compute_period_returns p.period_begin p.period_end
        p.balance_begin p.balance_end mktval).map Prod.fst)

/-- The aggregation of returns.py lines 399-409: the union of all currencies,
and for each the running product `total_return *= returns.get(currency, 1.)`
over the periods in order, starting from `1.`. -/
def totalReturns (all_returns : List (List (String × ℚ))) : List (String × ℚ) :=
  let currencies := (all_returns.flatMap (fun rets => rets.map Prod.fst)).dedup
  currencies.map (fun c =>
    (c, all_returns.foldl (fun tot rets => tot * ((rets.lookup c).getD 1)) 1))

/-- Embedding of `compute_returns` (returns.py lines 324-413): segment the
periods, compute each period's returns, compound them per currency, and
return the totals with `(periods[0][0], periods[-1][1])`. -/
def compute_returns (entries : List Directive)
    (accounts_assets accounts_intflows : List String)
    (mktval : Inventory → Date → Inventory)
    (date_begin date_end : Option Date) :
    Except CRError (List (String × ℚ) × (Date × Date)) :=
  match segment_periods entries accounts_assets accounts_intflows
      date_begin date_end with
  | .error e => .error (.seg e)
  | .ok periods =>
      match periodsReturns mktval periods with
      | none => .error .assertFail
      | some all_returns =>
          match periods with
          | [] => .error .emptyPeriods
          | p :: ps =>
              .ok (totalReturns all_returns,
                   (p.period_begin, (List.getLast (p :: ps) (by simp)).period_end))

/-! ## Lemmas about `find_matching` -/

/-- Membership in the assets component of the posting-classification fold. -/
theorem mem_classifyFold_assets (isIncome matchp : String → Bool) :
    ∀ (postings : List Posting) (s : List String × List String × List String)
      (a : String),
      a ∈ (postings.foldl (classifyPosting isIncome matchp) s).1 ↔
        a ∈ s.1 ∨ ∃ p ∈ postings,
          p.account = a ∧ matchp a = true ∧ isIncome a = false := by
  intro postings
  induction postings with
  | nil => simp
  | cons p ps ih =>
      intro s a
      simp only [List.foldl_cons, ih, List.mem_cons]
      rw [classifyPosting]
      rcases hm : matchp p.account with _ | _
      · simp only [Bool.false_eq_true, if_false]
        constructor
        · rintro (h | ⟨q, hq, h1, h2, h3⟩)
          · exact Or.inl h
          · exact Or.inr ⟨q, Or.inr hq, h1, h2, h3⟩
        · rintro (h | ⟨q, rfl | hq, rfl, h2, h3⟩)
          · exact Or.inl h
          · rw [hm] at h2; cases h2
          · exact Or.inr ⟨q, hq, rfl, h2, h3⟩
      · rcases hi : isIncome p.account with _ | _
        · simp only [if_true, Bool.false_eq_true, if_false, List.mem_insert_iff]
          constructor
          · rintro ((rfl | h) | ⟨q, hq, h1, h2, h3⟩)
            · exact Or.inr ⟨p, Or.inl rfl, rfl, hm, hi⟩
            · exact Or.inl h
            · exact Or.inr ⟨q, Or.inr hq, h1, h2, h3⟩
          · rintro (h | ⟨q, rfl | hq, rfl, h2, h3⟩)
            · exact Or.inl (Or.inr h)
            · exact Or.inl (Or.inl rfl)
            · exact Or.inr ⟨q, hq, rfl, h2, h3⟩
        · simp only [if_true]
          constructor
          · rintro (h | ⟨q, hq, h1, h2, h3⟩)
            · exact Or.inl h
            · exact Or.inr ⟨q, Or.inr hq, h1, h2, h3⟩
          · rintro (h | ⟨q, rfl | hq, rfl, h2, h3⟩)
            · exact Or.inl h
            · rw [hi] at h3; cases h3
            · exact Or.inr ⟨q, hq, rfl, h2, h3⟩

/-- Membership in the internal-flows component of the posting-classification
fold. -/
theorem mem_classifyFold_intflows (isIncome matchp : String → Bool) :
    ∀ (postings : List Posting) (s : List String × List String × List String)
      (a : String),
      a ∈ (postings.foldl (classifyPosting isIncome matchp) s).2.1 ↔
        a ∈ s.2.1 ∨ ∃ p ∈ postings,
          p.account = a ∧ matchp a = true ∧ isIncome a = true := by
  intro postings
  induction postings with
  | nil => simp
  | cons p ps ih =>
      intro s a
      simp only [List.foldl_cons, ih, List.mem_cons]
      rw [classifyPosting]
      rcases hm : matchp p.account with _ | _
      · simp only [Bool.false_eq_true, if_false]
        constructor
        · rintro (h | ⟨q, hq, h1, h2, h3⟩)
          · exact Or.inl h
          · exact Or.inr ⟨q, Or.inr hq, h1, h2, h3⟩
        · rintro (h | ⟨q, rfl | hq, rfl, h2, h3⟩)
          · exact Or.inl h
          · rw [hm] at h2; cases h2
          · exact Or.inr ⟨q, hq, rfl, h2, h3⟩
      · rcases hi : isIncome p.account with _ | _
        · simp only [if_true, Bool.false_eq_true, if_false]
          constructor
          · rintro (h | ⟨q, hq, h1, h2, h3⟩)
            · exact Or.inl h
            · exact Or.inr ⟨q, Or.inr hq, h1, h2, h3⟩
          · rintro (h | ⟨q, rfl | hq, rfl, h2, h3⟩)
            · exact Or.inl h
            · rw [hi] at h3; cases h3
            · exact Or.inr ⟨q, hq, rfl, h2, h3⟩
        · simp only [if_true, List.mem_insert_iff]
          constructor
          · rintro ((rfl | h) | ⟨q, hq, h1, h2, h3⟩)
            · exact Or.inr ⟨p, Or.inl rfl, rfl, hm, hi⟩
            · exact Or.inl h
            · exact Or.inr ⟨q, Or.inr hq, h1, h2, h3⟩
          · rintro (h | ⟨q, rfl | hq, rfl, h2, h3⟩)
            · exact Or.inl (Or.inr h)
            · exact Or.inl (Or.inl rfl)
            · exact Or.inr ⟨q, hq, rfl, h2, h3⟩

/-- Membership in the external-flows component of the posting-classification
fold. -/
theorem mem_classifyFold_extflows (isIncome matchp : String → Bool) :
    ∀ (postings : List Posting) (s : List String × List String × List String)
      (a : String),
      a ∈ (postings.foldl (classifyPosting isIncome matchp) s).2.2 ↔
        a ∈ s.2.2 ∨ ∃ p ∈ postings, p.account = a ∧ matchp a = false := by
  intro postings
  induction postings with
  | nil => simp
  | cons p ps ih =>
      intro s a
      simp only [List.foldl_cons, ih, List.mem_cons]
      rw [classifyPosting]
      rcases hm : matchp p.account with _ | _
      · simp only [Bool.false_eq_true, if_false, List.mem_insert_iff]
        constructor
        · rintro ((rfl | h) | ⟨q, hq, h1, h2⟩)
          · exact Or.inr ⟨p, Or.inl rfl, rfl, hm⟩
          · exact Or.inl h
          · exact Or.inr ⟨q, Or.inr hq, h1, h2⟩
        · rintro (h | ⟨q, rfl | hq, rfl, h2⟩)
          · exact Or.inl (Or.inr h)
          · exact Or.inl (Or.inl rfl)
          · exact Or.inr ⟨q, hq, rfl, h2⟩
      · rcases hi : isIncome p.account with _ | _ <;>
          simp only [if_true, Bool.false_eq_true, if_false] <;>
          constructor
        · rintro (h | ⟨q, hq, h1, h2⟩)
          · exact Or.inl h
          · exact Or.inr ⟨q, Or.inr hq, h1, h2⟩
        · rintro (h | ⟨q, rfl | hq, rfl, h2⟩)
          · exact Or.inl h
          · rw [hm] at h2; cases h2
          · exact Or.inr ⟨q, hq, rfl, h2⟩
        · rintro (h | ⟨q, hq, h1, h2⟩)
          · exact Or.inl h
          · exact Or.inr ⟨q, Or.inr hq, h1, h2⟩
        · rintro (h | ⟨q, rfl | hq, rfl, h2⟩)
          · exact Or.inl h
          · rw [hm] at h2; cases h2
          · exact Or.inr ⟨q, hq, rfl, h2⟩

/-- The matching-entries component of the entry fold accumulates exactly the
matching transactions, in order. -/
theorem foldl_matching_entries (isIncome matchp : String → Bool) :
    ∀ (entries : List Directive)
      (st : List Directive × List String × List String × List String),
      (entries.foldl (findMatchingStep isIncome matchp) st).1 =
        st.1 ++ entries.filter (isMatchingTxn matchp) := by
  intro entries
  induction entries with
  | nil => simp
  | cons e es ih =>
      intro st
      simp only [List.foldl_cons, ih, List.filter_cons]
      rw [findMatchingStep]
      rcases he : isMatchingTxn matchp e with _ | _
      · simp
      · simp

/-- Membership in the assets component of the entry fold of `find_matching`. -/
theorem mem_findMatchingFold_assets (isIncome matchp : String → Bool) :
    ∀ (entries : List Directive)
      (st : List Directive × List String × List String × List String)
      (a : String),
      a ∈ (entries.foldl (findMatchingStep isIncome matchp) st).2.1 ↔
        a ∈ st.2.1 ∨ ∃ d ∈ entries, isMatchingTxn matchp d = true ∧
          (∃ p ∈ d.postings, p.account = a) ∧
          matchp a = true ∧ isIncome a = false := by
  intro entries
  induction entries with
  | nil => simp
  | cons e es ih =>
      intro st a
      simp only [List.foldl_cons, ih, List.mem_cons]
      rw [findMatchingStep]
      rcases he : isMatchingTxn matchp e with _ | _
      · simp only [Bool.false_eq_true, if_false]
        constructor
        · rintro (h | ⟨d, hd, h1, h2, h3⟩)
          · exact Or.inl h
          · exact Or.inr ⟨d, Or.inr hd, h1, h2, h3⟩
        · rintro (h | ⟨d, rfl | hd, h1, h2, h3⟩)
          · exact Or.inl h
          · rw [he] at h1; cases h1
          · exact Or.inr ⟨d, hd, h1, h2, h3⟩
      · simp only [if_true, mem_classifyFold_assets]
        constructor
        · rintro ((h | ⟨q, hq, rfl, h2, h3⟩) | ⟨d, hd, h1, h2, h3⟩)
          · exact Or.inl h
          · exact Or.inr ⟨e, Or.inl rfl, he, ⟨q, hq, rfl⟩, h2, h3⟩
          · exact Or.inr ⟨d, Or.inr hd, h1, h2, h3⟩
        · rintro (h | ⟨d, rfl | hd, h1, ⟨q, hq, rfl⟩, h2, h3⟩)
          · exact Or.inl (Or.inl h)
          · exact Or.inl (Or.inr ⟨q, hq, rfl, h2, h3⟩)
          · exact Or.inr ⟨d, hd, h1, ⟨q, hq, rfl⟩, h2, h3⟩

/-- Membership in the internal-flows component of the entry fold of
`find_matching`. -/
theorem mem_findMatchingFold_intflows (isIncome matchp : String → Bool) :
    ∀ (entries : List Directive)
      (st : List Directive × List String × List String × List String)
      (a : String),
      a ∈ (entries.foldl (findMatchingStep isIncome matchp) st).2.2.1 ↔
        a ∈ st.2.2.1 ∨ ∃ d ∈ entries, isMatchingTxn matchp d = true ∧
          (∃ p ∈ d.postings, p.account = a) ∧
          matchp a = true ∧ isIncome a = true := by
  intro entries
  induction entries with
  | nil => simp
  | cons e es ih =>
      intro st a
      simp only [List.foldl_cons, ih, List.mem_cons]
      rw [findMatchingStep]
      rcases he : isMatchingTxn matchp e with _ | _
      · simp only [Bool.false_eq_true, if_false]
        constructor
        · rintro (h | ⟨d, hd, h1, h2, h3⟩)
          · exact Or.inl h
          · exact Or.inr ⟨d, Or.inr hd, h1, h2, h3⟩
        · rintro (h | ⟨d, rfl | hd, h1, h2, h3⟩)
          · exact Or.inl h
          · rw [he] at h1; cases h1
          · exact Or.inr ⟨d, hd, h1, h2, h3⟩
      · simp only [if_true, mem_classifyFold_intflows]
        constructor
        · rintro ((h | ⟨q, hq, rfl, h2, h3⟩) | ⟨d, hd, h1, h2, h3⟩)
          · exact Or.inl h
          · exact Or.inr ⟨e, Or.inl rfl, he, ⟨q, hq, rfl⟩, h2, h3⟩
          · exact Or.inr ⟨d, Or.inr hd, h1, h2, h3⟩
        · rintro (h | ⟨d, rfl | hd, h1, ⟨q, hq, rfl⟩, h2, h3⟩)
          · exact Or.inl (Or.inl h)
          · exact Or.inl (Or.inr ⟨q, hq, rfl, h2, h3⟩)
          · exact Or.inr ⟨d, hd, h1, ⟨q, hq, rfl⟩, h2, h3⟩

/-- Membership in the external-flows component of the entry fold of
`find_matching`. -/
theorem mem_findMatchingFold_extflows (isIncome matchp : String → Bool) :
    ∀ (entries : List Directive)
      (st : List Directive × List String × List String × List String)
      (a : String),
      a ∈ (entries.foldl (findMatchingStep isIncome matchp) st).2.2.2 ↔
        a ∈ st.2.2.2 ∨ ∃ d ∈ entries, isMatchingTxn matchp d = true ∧
          (∃ p ∈ d.postings, p.account = a) ∧ matchp a = false := by
  intro entries
  induction entries with
  | nil => simp
  | cons e es ih =>
      intro st a
      simp only [List.foldl_cons, ih, List.mem_cons]
      rw [findMatchingStep]
      rcases he : isMatchingTxn matchp e with _ | _
      · simp only [Bool.false_eq_true, if_false]
        constructor
        · rintro (h | ⟨d, hd, h1, h2, h3⟩)
          · exact Or.inl h
          · exact Or.inr ⟨d, Or.inr hd, h1, h2, h3⟩
        · rintro (h | ⟨d, rfl | hd, h1, h2, h3⟩)
          · exact Or.inl h
          · rw [he] at h1; cases h1
          · exact Or.inr ⟨d, hd, h1, h2, h3⟩
      · simp only [if_true, mem_classifyFold_extflows]
        constructor
        · rintro ((h | ⟨q, hq, rfl, h2⟩) | ⟨d, hd, h1, h2, h3⟩)
          · exact Or.inl h
          · exact Or.inr ⟨e, Or.inl rfl, he, ⟨q, hq, rfl⟩, h2⟩
          · exact Or.inr ⟨d, Or.inr hd, h1, h2, h3⟩
        · rintro (h | ⟨d, rfl | hd, h1, ⟨q, hq, rfl⟩, h2⟩)
          · exact Or.inl (Or.inl h)
          · exact Or.inl (Or.inr ⟨q, hq, rfl, h2⟩)
          · exact Or.inr ⟨d, hd, h1, ⟨q, hq, rfl⟩, h2⟩

/-- C5: `find_matching` records exactly the Transactions with at least one
posting whose account matches the pattern; within the matching transactions,
a matching posting account goes to `accounts_intflows` when the
income-statement predicate holds and to `accounts_assets` otherwise, a
non-matching posting account goes to `accounts_extflows`, and no other
account enters any of the three sets (membership is exactly characterized).
The anchored regex `re.compile(related_regexp).match` and
`account_types.is_income_statement_account` are abstracted as the boolean
predicates `matchp` and `isIncome`. -/
theorem find_matching_classification (entries : List Directive)
    (isIncome matchp : String → Bool) :
    (find_matching entries isIncome matchp).1 =
        entries.filter (isMatchingTxn matchp) ∧
    (∀ a, a ∈ (find_matching entries isIncome matchp).2.1 ↔
        (∃ d ∈ entries, isMatchingTxn matchp d = true ∧
            ∃ p ∈ d.postings, p.account = a) ∧
          matchp a = true ∧ isIncome a = false) ∧
    (∀ a, a ∈ (find_matching entries isIncome matchp).2.2.1 ↔
        (∃ d ∈ entries, isMatchingTxn matchp d = true ∧
            ∃ p ∈ d.postings, p.account = a) ∧
          matchp a = true ∧ isIncome a = true) ∧
    (∀ a, a ∈ (find_matching entries isIncome matchp).2.2.2 ↔
        (∃ d ∈ entries, isMatchingTxn matchp d = true ∧
            ∃ p ∈ d.postings, p.account = a) ∧
          matchp a = false) := by
  refine ⟨?_, ?_, ?_, ?_⟩
  · rw [find_matching, foldl_matching_entries]
    simp
  · intro a
    rw [find_matching, mem_findMatchingFold_assets]
    simp only [List.not_mem_nil, false_or]
    constructor
    · rintro ⟨d, hd, h1, h2, h3, h4⟩
      exact ⟨⟨d, hd, h1, h2⟩, h3, h4⟩
    · rintro ⟨⟨d, hd, h1, h2⟩, h3, h4⟩
      exact ⟨d, hd, h1, h2, h3, h4⟩
  · intro a
    rw [find_matching, mem_findMatchingFold_intflows]
    simp only [List.not_mem_nil, false_or]
    constructor
    · rintro ⟨d, hd, h1, h2, h3, h4⟩
      exact ⟨⟨d, hd, h1, h2⟩, h3, h4⟩
    · rintro ⟨⟨d, hd, h1, h2⟩, h3, h4⟩
      exact ⟨d, hd, h1, h2, h3, h4⟩
  · intro a
    rw [find_matching, mem_findMatchingFold_extflows]
    simp only [List.not_mem_nil, false_or]
    constructor
    · rintro ⟨d, hd, h1, h2, h3⟩
      exact ⟨⟨d, hd, h1, h2⟩, h3⟩
    · rintro ⟨⟨d, hd, h1, h2⟩, h3⟩
      exact ⟨d, hd, h1, h2, h3⟩

/-- C6: the three account sets produced by `find_matching` are pairwise
disjoint — no account name appears in more than one of
`accounts_assets`, `accounts_intflows`, `accounts_extflows`. -/
theorem find_matching_sets_disjoint (entries : List Directive)
    (isIncome matchp : String → Bool) :
    (∀ a, a ∈ (find_matching entries isIncome matchp).2.1 →
        a ∉ (find_matching entries isIncome matchp).2.2.1) ∧
    (∀ a, a ∈ (find_matching entries isIncome matchp).2.1 →
        a ∉ (find_matching entries isIncome matchp).2.2.2) ∧
    (∀ a, a ∈ (find_matching entries isIncome matchp).2.2.1 →
        a ∉ (find_matching entries isIncome matchp).2.2.2) := by
  refine ⟨?_, ?_, ?_⟩ <;> intro a ha hb
  · rw [find_matching, mem_findMatchingFold_assets] at ha
    rw [find_matching, mem_findMatchingFold_intflows] at hb
    simp only [List.not_mem_nil, false_or] at ha hb
    obtain ⟨_, _, _, _, _, hi1⟩ := ha
    obtain ⟨_, _, _, _, _, hi2⟩ := hb
    rw [hi1] at hi2
    cases hi2
  · rw [find_matching, mem_findMatchingFold_assets] at ha
    rw [find_matching, mem_findMatchingFold_extflows] at hb
    simp only [List.not_mem_nil, false_or] at ha hb
    obtain ⟨_, _, _, _, hm1, _⟩ := ha
    obtain ⟨_, _, _, _, hm2⟩ := hb
    rw [hm1] at hm2
    cases hm2
  · rw [find_matching, mem_findMatchingFold_intflows] at ha
    rw [find_matching, mem_findMatchingFold_extflows] at hb
    simp only [List.not_mem_nil, false_or] at ha hb
    obtain ⟨_, _, _, _, hm1, _⟩ := ha
    obtain ⟨_, _, _, _, hm2⟩ := hb
    rw [hm1] at hm2
    cases hm2

/-! ## Lemmas about `segment_periods` -/

/-- Contiguity of a list of periods: each period's end date is the next
period's begin date (no gaps, no overlaps). -/
def chainedb : List Period → Bool
  | p :: q :: rest => (p.period_end == q.period_begin) && chainedb (q :: rest)
  | _ => true

/-- A nonempty suffix has the same last element. -/
theorem getLast?_of_suffix {α : Type _} {l1 l2 : List α}
    (h : l1 <:+ l2) (hne : l1 ≠ []) : l2.getLast? = l1.getLast? := by
  obtain ⟨t, rfl⟩ := h
  exact List.getLast?_append_of_ne_nil t hne

/-- When the inner loop exits "done", the returned `period_end` is `date_end`
when given (lines 194-196 and 205-206), else the date of the last entry of
the stream, all of which was consumed (line 191). -/
theorem innerLoop_done_pe (de : Option Date)
    (accounts_related accounts_assets : List String) :
    ∀ (rest : List Directive) (entry : Directive) (balance : Inventory)
      (pe : Date) (b : Inventory),
      innerLoop de accounts_related accounts_assets entry rest balance =
        (pe, b, .done) →
      some pe = (match de with
                 | some d => some d
                 | none => (entry :: rest).getLast?.map Directive.date) := by
  intro rest
  induction rest with
  | nil =>
      intro entry balance pe b h
      rw [innerLoop] at h
      split at h
      · simp at h
      · split at h
        · rename_i hre
          simp only [Prod.mk.injEq] at h
          obtain ⟨h1, _, _⟩ := h
          subst h1
          match de, hre with
          | some d, _ => simp
          | none, hre => simp [reachedEnd] at hre
        · simp only [Prod.mk.injEq] at h
          obtain ⟨h1, _, _⟩ := h
          subst h1
          match de with
          | some d => simp
          | none => simp
  | cons x xs ih =>
      intro entry balance pe b h
      rw [innerLoop] at h
      split at h
      · simp at h
      · split at h
        · rename_i hre
          simp only [Prod.mk.injEq] at h
          obtain ⟨h1, _, _⟩ := h
          subst h1
          match de, hre with
          | some d, _ => simp
          | none, hre => simp [reachedEnd] at hre
        · have := ih x _ pe b h
          rw [this]
          match de with
          | some d => rfl
          | none => rw [List.getLast?_cons_cons]

/-- When the inner loop exits at a boundary, the returned `period_end` is the
date of the boundary entry (line 191 just before the break on line 193). -/
theorem innerLoop_boundary_pe (de : Option Date)
    (accounts_related accounts_assets : List String) :
    ∀ (rest : List Directive) (entry : Directive) (balance : Inventory)
      (pe : Date) (b : Inventory) (be : Directive) (brest : List Directive),
      innerLoop de accounts_related accounts_assets entry rest balance =
        (pe, b, .boundary be brest) →
      pe = be.date := by
  intro rest
  induction rest with
  | nil =>
      intro entry balance pe b be brest h
      rw [innerLoop] at h
      split at h
      · simp only [Prod.mk.injEq, InnerExit.boundary.injEq] at h
        obtain ⟨h1, _, h2, _⟩ := h
        rw [← h1, ← h2]
      · split at h
        · simp at h
        · simp at h
  | cons x xs ih =>
      intro entry balance pe b be brest h
      rw [innerLoop] at h
      split at h
      · simp only [Prod.mk.injEq, InnerExit.boundary.injEq] at h
        obtain ⟨h1, _, h2, _⟩ := h
        rw [← h1, ← h2]
      · split at h
        · simp at h
        · exact ih x _ pe b be brest h

/-- Master lemma for the main loop of `segment_periods`: the loop only appends
to the already-emitted list `acc`; the appended periods are nonempty, start at
`period_begin`, are contiguous, and their last end date is `date_end` when
given, else the date of the last entry of the stream. -/
theorem outerLoop_main (de : Option Date) (rel ast : List String) :
    ∀ (n : ℕ) (rest : List Directive) (entry : Directive) (balance : Inventory)
      (pb : Date), rest.length ≤ n →
      ∃ ps : List Period,
        (∀ acc, outerLoop de rel ast entry rest balance pb acc = acc ++ ps) ∧
        ps ≠ [] ∧
        ps.head?.map Period.period_begin = some pb ∧
        chainedb ps = true ∧
        ps.getLast?.map Period.period_end =
          (match de with
           | some d => some d
           | none => (entry :: rest).getLast?.map Directive.date) := by
  intro n
  induction n using Nat.strong_induction_on with
  | _ n ih =>
  intro rest entry balance pb hlen
  rcases hres : innerLoop de rel ast entry rest balance with ⟨pe, bal1, ex⟩
  rcases ex with ⟨bentry, brest⟩ | _
  · -- boundary exit
    rcases brest with _ | ⟨e, r⟩
    · -- stream exhausted while absorbing the boundary entry
      have hpe : pe = bentry.date :=
        innerLoop_boundary_pe de rel ast rest entry balance pe bal1 bentry [] hres
      have hsfx : [bentry] <:+ (entry :: rest) :=
        innerLoop_boundary_suffix de rel ast rest entry balance pe bal1 bentry [] hres
      refine ⟨⟨pb, pe, balance, bal1⟩ ::
        (match de with
         | some d => [⟨pe, d, sum_balances_for_accounts bal1 bentry ast,
                       sum_balances_for_accounts bal1 bentry ast⟩]
         | none => []), ?_, ?_, ?_, ?_, ?_⟩
      · intro acc
        rw [outerLoop]
        split
        · rename_i pe2 bal2 heq
          rw [hres] at heq
          simp at heq
        · rename_i pe2 bal12 bentry2 brest2 heq
          rw [hres] at heq
          simp only [Prod.mk.injEq, InnerExit.boundary.injEq] at heq
          obtain ⟨h1, h2, h3, h4⟩ := heq
          subst h1; subst h2; subst h3; subst h4
          cases de with
          | none => simp
          | some d => simp
      · simp
      · simp
      · cases de with
        | none => rfl
        | some d => simp [chainedb]
      · cases de with
        | none =>
            have : (entry :: rest).getLast? = some bentry := by
              rw [getLast?_of_suffix hsfx (by simp)]
              rfl
            simp [this, hpe]
        | some d => simp
    · -- boundary entry absorbed, loop continues
      have hsfx : (bentry :: e :: r) <:+ (entry :: rest) :=
        innerLoop_boundary_suffix de rel ast rest entry balance pe bal1 bentry
          (e :: r) hres
      have hlen2 : r.length < n := by
        have := hsfx.length_le
        simp only [List.length_cons] at this ⊢
        omega
      obtain ⟨ps', hacc', hne', hhead', hchain', hlast'⟩ :=
        ih r.length hlen2 r e (sum_balances_for_accounts bal1 bentry ast) pe
          (Nat.le_refl _)
      obtain ⟨q, t, rfl⟩ : ∃ q t, ps' = q :: t := by
        cases ps' with
        | nil => cases hne' rfl
        | cons q t => exact ⟨q, t, rfl⟩
      have hq : q.period_begin = pe := by
        simp only [List.head?_cons, Option.map_some'] at hhead'
        exact Option.some.inj hhead'
      refine ⟨⟨pb, pe, balance, bal1⟩ :: q :: t, ?_, ?_, ?_, ?_, ?_⟩
      · intro acc
        rw [outerLoop]
        split
        · rename_i pe2 bal2 heq
          rw [hres] at heq
          simp at heq
        · rename_i pe2 bal12 bentry2 brest2 heq
          rw [hres] at heq
          simp only [Prod.mk.injEq, InnerExit.boundary.injEq] at heq
          obtain ⟨h1, h2, h3, h4⟩ := heq
          subst h1; subst h2; subst h3; subst h4
          dsimp only
          rw [hacc']
          simp
      · simp
      · simp
      · simp only [chainedb, hq, beq_self_eq_true, Bool.true_and]
        exact hchain'
      · rw [List.getLast?_cons_cons]
        rw [hlast']
        cases de with
        | some d => rfl
        | none =>
            have h1 : (e :: r) <:+ (bentry :: e :: r) := ⟨[bentry], rfl⟩
            rw [getLast?_of_suffix (h1.trans hsfx) (by simp)]
  · -- done exit
    have hpe := innerLoop_done_pe de rel ast rest entry balance pe bal1 hres
    refine ⟨[⟨pb, pe, balance, bal1⟩], ?_, ?_, ?_, ?_, ?_⟩
    · intro acc
      rw [outerLoop]
      split
      · rename_i pe2 bal2 heq
        rw [hres] at heq
        simp only [Prod.mk.injEq] at heq
        obtain ⟨h1, h2, _⟩ := heq
        subst h1; subst h2
        rfl
      · rename_i pe2 bal12 bentry2 brest2 heq
        rw [hres] at heq
        simp at heq
    · simp
    · simp
    · rfl
    · simpa using hpe

/-- When the skip loop of lines 161-173 exhausts the stream (`StopIteration`),
every entry of the stream was dated before `date_begin`. -/
theorem skipLoop_inl (db : Date) (de : Option Date) (ast : List String) :
    ∀ (rest : List Directive) (entry : Directive) (balance bal : Inventory),
      skipLoop db de ast entry rest balance = .inl bal →
      ∀ x ∈ entry :: rest, x.date < db := by
  intro rest
  induction rest with
  | nil =>
      intro entry balance bal h x hx
      rw [skipLoop] at h
      split at h
      · simp at h
      · split at h
        · simp at h
        · rename_i hge _
          simp only [List.mem_singleton] at hx
          subst hx
          exact not_le.mp hge
  | cons y ys ih =>
      intro entry balance bal h x hx
      rw [skipLoop] at h
      split at h
      · simp at h
      · split at h
        · simp at h
        · rename_i hge _
          rcases List.mem_cons.mp hx with rfl | hx
          · exact not_le.mp hge
          · exact ih y _ bal h x hx

/-- When the skip loop of lines 161-173 breaks, the current entry and the
remaining stream form a suffix of the input, and the break condition held for
the current entry. -/
theorem skipLoop_inr (db : Date) (de : Option Date) (ast : List String) :
    ∀ (rest : List Directive) (entry : Directive) (balance bal : Inventory)
      (e : Directive) (r : List Directive),
      skipLoop db de ast entry rest balance = .inr (bal, e, r) →
      (e :: r) <:+ (entry :: rest) ∧
        (db ≤ e.date ∨ reachedEnd de e.date = true) := by
  intro rest
  induction rest with
  | nil =>
      intro entry balance bal e r h
      rw [skipLoop] at h
      split at h
      · rename_i hge
        simp only [Sum.inr.injEq, Prod.mk.injEq] at h
        obtain ⟨_, h2, h3⟩ := h
        subst h2; subst h3
        exact ⟨List.suffix_refl _, Or.inl hge⟩
      · split at h
        · rename_i hre
          simp only [Sum.inr.injEq, Prod.mk.injEq] at h
          obtain ⟨_, h2, h3⟩ := h
          subst h2; subst h3
          exact ⟨List.suffix_refl _, Or.inr hre⟩
        · simp at h
  | cons y ys ih =>
      intro entry balance bal e r h
      rw [skipLoop] at h
      split at h
      · rename_i hge
        simp only [Sum.inr.injEq, Prod.mk.injEq] at h
        obtain ⟨_, h2, h3⟩ := h
        subst h2; subst h3
        exact ⟨List.suffix_refl _, Or.inl hge⟩
      · split at h
        · rename_i hre
          simp only [Sum.inr.injEq, Prod.mk.injEq] at h
          obtain ⟨_, h2, h3⟩ := h
          subst h2; subst h3
          exact ⟨List.suffix_refl _, Or.inr hre⟩
        · obtain ⟨hs, hc⟩ := ih y _ bal e r h
          exact ⟨hs.trans (List.suffix_cons _ _), hc⟩

/-- When every entry of the stream is dated before `date_begin` and before any
given `date_end`, the skip loop of lines 161-173 exhausts the stream. -/
theorem skipLoop_exhausts (db : Date) (de : Option Date) (ast : List String) :
    ∀ (rest : List Directive) (entry : Directive) (balance : Inventory),
      (∀ x ∈ entry :: rest, x.date < db ∧ reachedEnd de x.date = false) →
      ∃ bal, skipLoop db de ast entry rest balance = .inl bal := by
  intro rest
  induction rest with
  | nil =>
      intro entry balance hall
      obtain ⟨h1, h2⟩ := hall entry (by simp)
      rw [skipLoop]
      rw [if_neg (not_le.mpr h1), if_neg (by simp [h2])]
      exact ⟨_, rfl⟩
  | cons y ys ih =>
      intro entry balance hall
      obtain ⟨h1, h2⟩ := hall entry (by simp)
      rw [skipLoop]
      rw [if_neg (not_le.mpr h1), if_neg (by simp [h2])]
      exact ih y _ (fun x hx => hall x (List.mem_cons_of_mem _ hx))

/-- The begin date the spec predicts for the first period: `date_begin` when
given, else the date of the first asset-relevant entry. -/
def specFirstBegin (entries : List Directive) (accounts_assets : List String)
    (date_begin : Option Date) : Option Date :=
  match date_begin with
  | some d => some d
  | none => (entries.filter (relevantEntry accounts_assets)).head?.map Directive.date

/-- The end date the code produces for the last period: `date_end` when given;
else, when `date_begin` is given and every asset-relevant entry is dated
before it (the degenerate path of line 173), `date_begin` itself; else the
date of the last asset-relevant entry (which is the last consumed entry). -/
def specLastEnd (entries : List Directive) (accounts_assets : List String)
    (date_begin date_end : Option Date) : Option Date :=
  match date_end with
  | some d => some d
  | none =>
      match date_begin with
      | some dbv =>
          if (entries.filter (relevantEntry accounts_assets)).all
              (fun e => e.date < dbv) then some dbv
          else (entries.filter (relevantEntry accounts_assets)).getLast?.map
            Directive.date
      | none => (entries.filter (relevantEntry accounts_assets)).getLast?.map
          Directive.date

/-- C1 (amended): whenever `segment_periods` returns, the period list is
nonempty and contiguous (`periods[i].end == periods[i+1].begin`), its first
period begins at `date_begin` when given (else at the date of the first
asset-relevant entry), and its last period ends at `date_end` when given;
when `date_end` is absent the last end is the date of the last consumed
entry, except on the degenerate path where `date_begin` is given and every
asset-relevant entry precedes it, where it is `date_begin`. -/
theorem segment_periods_partition (entries : List Directive)
    (accounts_assets accounts_intflows : List String)
    (date_begin date_end : Option Date) (ps : List Period)
    (h : segment_periods entries accounts_assets accounts_intflows
        date_begin date_end = .ok ps) :
    ps ≠ [] ∧ chainedb ps = true ∧
    ps.head?.map Period.period_begin =
      specFirstBegin entries accounts_assets date_begin ∧
    ps.getLast?.map Period.period_end =
      specLastEnd entries accounts_assets date_begin date_end := by
  rw [segment_periods] at h
  split at h
  · simp at h
  · split at h
    · simp at h
    · rename_i entry rest hfil
      split at h
      · -- date_begin = some db
        rename_i de0 db hbad
        split at h
        · -- skip loop exhausted: the degenerate single period
          rename_i x0 balance hskip
          simp only [Except.ok.injEq] at h
          subst h
          refine ⟨by simp, rfl, by simp [specFirstBegin], ?_⟩
          have hall := skipLoop_inl db date_end accounts_assets rest entry
            [] balance hskip
          rw [← hfil] at hall
          cases date_end with
          | some d => simp [specLastEnd]
          | none =>
              have hcond : (entries.filter
                  (relevantEntry accounts_assets)).all
                  (fun e => e.date < db) = true := by
                rw [List.all_eq_true]
                intro x hx
                simpa using hall x hx
              simp [specLastEnd, hcond]
        · -- skip loop broke at an in-range entry
          rename_i x0 balance e r hskip
          obtain ⟨ps0, hacc, hne, hhead, hchain, hlast⟩ :=
            outerLoop_main date_end (accounts_assets ++ accounts_intflows)
              accounts_assets r.length r e balance db (Nat.le_refl _)
          simp only [hacc [], List.nil_append, Except.ok.injEq] at h
          subst h
          refine ⟨hne, hchain, ?_, ?_⟩
          · rw [hhead]
            simp [specFirstBegin]
          · rw [hlast]
            obtain ⟨hsfx, hbreak⟩ := skipLoop_inr db date_end accounts_assets
              rest entry [] balance e r hskip
            cases date_end with
            | some d => simp [specLastEnd]
            | none =>
                have hdge : db ≤ e.date := by
                  rcases hbreak with hb | hb
                  · exact hb
                  · simp [reachedEnd] at hb
                have he : e ∈ entries.filter (relevantEntry accounts_assets) := by
                  rw [hfil]
                  exact hsfx.subset (by simp)
                have hcond : (entries.filter
                    (relevantEntry accounts_assets)).all
                    (fun e => e.date < db) = false := by
                  rw [List.all_eq_false]
                  exact ⟨e, he, by simpa using not_lt.mpr hdge⟩
                have hgl : (entries.filter
                    (relevantEntry accounts_assets)).getLast? =
                    (e :: r).getLast? := by
                  rw [hfil]
                  exact getLast?_of_suffix hsfx (by simp)
                simp [specLastEnd, hcond, hgl]
      · -- date_begin = none
        rename_i de0 hbad
        obtain ⟨ps0, hacc, hne, hhead, hchain, hlast⟩ :=
          outerLoop_main date_end (accounts_assets ++ accounts_intflows)
            accounts_assets rest.length rest entry [] entry.date (Nat.le_refl _)
        simp only [hacc [], List.nil_append, Except.ok.injEq] at h
        subst h
        refine ⟨hne, hchain, ?_, ?_⟩
        · rw [hhead]
          simp [specFirstBegin, hfil]
        · rw [hlast]
          cases date_end with
          | some d => simp [specLastEnd]
          | none => simp [specLastEnd, hfil]

deriving instance DecidableEq for Except

/-- A small concrete transaction used to instantiate theorems: dated day 0,
posting 100 USD (no cost) to account `A`. -/
def exTxn : Directive := Directive.txn 0 [⟨"A", ⟨⟨"USD", none⟩, 100⟩⟩]

/-- The inventory holding the single position of `exTxn`. -/
def exInv : Inventory := [⟨⟨"USD", none⟩, 100⟩]

/-- Witness for C1 (amended) at a concrete input: one relevant transaction
dated before the given `date_begin`. -/
theorem segment_periods_partition_witness :
    ([⟨5, 5, exInv, exInv⟩] : List Period) ≠ [] ∧
    chainedb [⟨5, 5, exInv, exInv⟩] = true ∧
    ([⟨5, 5, exInv, exInv⟩] : List Period).head?.map Period.period_begin =
      specFirstBegin [exTxn] ["A"] (some 5) ∧
    ([⟨5, 5, exInv, exInv⟩] : List Period).getLast?.map Period.period_end =
      specLastEnd [exTxn] ["A"] (some 5) none :=
  segment_periods_partition [exTxn] ["A"] [] (some 5) none
    [⟨5, 5, exInv, exInv⟩] (by decide)

/-- Counterexample to C1 as stated: with `date_begin = 5`, no `date_end`, and
the only asset-relevant entry dated 0 (before `date_begin`), `segment_periods`
returns one degenerate period ending at day 5, while the last (indeed only)
consumed entry is dated day 0 — so the last period's end is not the date of
the last consumed entry. -/
theorem segment_periods_last_end_cex :
    segment_periods [exTxn] ["A"] [] (some 5) none =
      .ok [⟨5, 5, exInv, exInv⟩] ∧
    exTxn.date = 0 ∧ (5 : Date) ≠ 0 := by
  refine ⟨by decide, rfl, by decide⟩

/-- C7: `segment_periods` produces the ordering-violation `ValueError` exactly
when both `date_begin` and `date_end` are given with
`date_begin >= date_end`; the checked condition does not involve the entries
(the check on lines 143-145 runs before any scanning) and the error result
carries no periods. -/
theorem segment_periods_valueError_iff (entries : List Directive)
    (accounts_assets accounts_intflows : List String)
    (date_begin date_end : Option Date) :
    segment_periods entries accounts_assets accounts_intflows
        date_begin date_end = .error .valueError ↔
      ∃ b e, date_begin = some b ∧ date_end = some e ∧ e ≤ b := by
  rcases hb : badDates date_begin date_end with _ | _
  · rw [segment_periods, hb]
    simp only [Bool.false_eq_true, if_false]
    constructor
    · intro h
      exfalso
      split at h
      · simp at h
      · split at h
        · split at h
          · simp at h
          · simp at h
        · simp at h
    · rintro ⟨b, e, rfl, rfl, hle⟩
      rw [badDates] at hb
      simp only [ge_iff_le, decide_eq_false_iff_not, not_le] at hb
      exact absurd hle (not_le.mpr hb)
  · rw [segment_periods, hb]
    rw [if_pos rfl]
    constructor
    · intro _
      cases date_begin with
      | none => simp [badDates] at hb
      | some b =>
          cases date_end with
          | none => simp [badDates] at hb
          | some e =>
              rw [badDates] at hb
              simp only [ge_iff_le, decide_eq_true_eq] at hb
              exact ⟨b, e, rfl, rfl, hb⟩
    · intro _
      rfl

/-- Counterexample to C8 as stated: when no entry at all is asset-relevant
(here: the only entry posts to account `B`, not to the asset account `A`),
`segment_periods` does not return a degenerate period — the `next` call on
line 156 sits outside the `try` of lines 163-171, so the `StopIteration`
escapes uncaught. -/
theorem segment_periods_no_relevant_cex :
    segment_periods [Directive.txn 0 [⟨"B", ⟨⟨"USD", none⟩, 100⟩⟩]]
      ["A"] [] (some 5) none = .error .stopIteration := by
  decide

/-- C8 (amended): when `date_begin` is given, at least one asset-relevant
entry exists, every asset-relevant entry is dated before `date_begin`, and
any given `date_end` lies after `date_begin`, `segment_periods` raises no
error and returns exactly one degenerate period
`(date_begin, date_end or date_begin, balance, balance)` with equal begin and
end balances.  (When no asset-relevant entry exists at all, it instead
raises `StopIteration`, per the counterexample.) -/
theorem segment_periods_degenerate (entries : List Directive)
    (accounts_assets accounts_intflows : List String)
    (db : Date) (de : Option Date)
    (hne : entries.filter (relevantEntry accounts_assets) ≠ [])
    (hall : ∀ e ∈ entries.filter (relevantEntry accounts_assets), e.date < db)
    (hde : ∀ d, de = some d → db < d) :
    ∃ bal, segment_periods entries accounts_assets accounts_intflows
      (some db) de = .ok [⟨db, de.getD db, bal, bal⟩] := by
  rw [segment_periods]
  have hbad : ¬ badDates (some db) de = true := by
    cases de with
    | none => simp [badDates]
    | some d =>
        rw [badDates]
        simp only [ge_iff_le, decide_eq_true_eq, not_le]
        exact hde d rfl
  rw [if_neg hbad]
  rcases hfil : entries.filter (relevantEntry accounts_assets) with _ | ⟨entry, rest⟩
  · exact absurd hfil hne
  · rw [hfil] at hall
    have hcond : ∀ x ∈ entry :: rest, x.date < db ∧ reachedEnd de x.date = false := by
      intro x hx
      have hxd : x.date < db := hall x hx
      refine ⟨hxd, ?_⟩
      cases de with
      | none => rfl
      | some d =>
          have : x.date < d := lt_trans hxd (hde d rfl)
          simp only [reachedEnd, decide_eq_false_iff_not, not_le]
          exact this
    obtain ⟨bal, hskip⟩ := skipLoop_exhausts db de accounts_assets rest entry [] hcond
    simp only [hskip]
    exact ⟨bal, rfl⟩

/-- Witness for C8 (amended) at a concrete input: one asset-relevant entry
dated 0, `date_begin = 5`, no `date_end`. -/
theorem segment_periods_degenerate_witness :
    ∃ bal, segment_periods [exTxn] ["A"] [] (some 5) none =
      .ok [⟨5, (none : Option Date).getD 5, bal, bal⟩] :=
  segment_periods_degenerate [exTxn] ["A"] [] 5 none (by decide)
    (by decide) (fun d h => Option.noConfusion h)

/-- C9: periods already emitted by the main loop of `segment_periods` are
never changed by the remainder of the run — the loop only appends, so the
entry at any index of the already-emitted list `acc` (including its stored
balance snapshots) is unchanged in the final result, whatever mutations the
running balance undergoes afterwards.  (The value-copy semantics of
`copy.copy` on line 182/211 is modelled from the spec: Inventory snapshots
are value copies, never aliased.) -/
theorem outerLoop_frame (de : Option Date)
    (accounts_related accounts_assets : List String)
    (entry : Directive) (rest : List Directive) (balance : Inventory)
    (period_begin : Date) (acc : List Period) (i : ℕ) (hi : i < acc.length) :
    (outerLoop de accounts_related accounts_assets entry rest balance
        period_begin acc)[i]? = acc[i]? := by
  obtain ⟨ps, hacc, -, -, -, -⟩ :=
    outerLoop_main de accounts_related accounts_assets rest.length rest entry
      balance period_begin (Nat.le_refl _)
  rw [hacc acc, List.getElem?_append, if_pos hi]

/-- Witness for C9 at a concrete input: a single already-emitted period is
still the first element of the result. -/
theorem outerLoop_frame_witness :
    (outerLoop none [] ["A"] exTxn [] [] 0 [⟨9, 9, [], exInv⟩])[0]? =
      [(⟨9, 9, [], exInv⟩ : Period)][0]? :=
  outerLoop_frame none [] ["A"] exTxn [] [] 0 [⟨9, 9, [], exInv⟩] 0
    (by decide)

/-! ## Lemmas about `compute_period_returns` -/

/-- The currencies of the plain (not held-at-cost) positions of an inventory,
in order. -/
def plainCurrencies (inv : Inventory) : List String :=
  inv.filterMap (fun p => match p.lot.cost with
    | none => some p.lot.currency
    | some _ => none)

/-- The `(currency, number)` pairs of the plain positions of an inventory, in
order — the association list `single` built by returns.py lines 270-278. -/
def plainPairs (inv : Inventory) : List (String × ℚ) :=
  inv.filterMap (fun p => match p.lot.cost with
    | none => some (p.lot.currency, p.number)
    | some _ => none)

/-- The keys of `plainPairs` are `plainCurrencies`. -/
theorem plainPairs_keys (inv : Inventory) :
    (plainPairs inv).map Prod.fst = plainCurrencies inv := by
  induction inv with
  | nil => rfl
  | cons p rest ih =>
      rw [plainPairs, plainCurrencies, List.filterMap_cons, List.filterMap_cons]
      rcases hc : p.lot.cost with _ | c
      · simp only [List.map_cons]
        rw [plainPairs, plainCurrencies] at ih
        rw [ih]
      · rw [plainPairs, plainCurrencies] at ih
        exact ih

/-- An association-list lookup misses exactly the keys that are absent. -/
theorem lookup_eq_none_of_not_mem {l : List (String × ℚ)} {c : String}
    (h : c ∉ l.map Prod.fst) : l.lookup c = none := by
  induction l with
  | nil => rfl
  | cons p rest ih =>
      simp only [List.map_cons, List.mem_cons, not_or] at h
      obtain ⟨h1, h2⟩ := h
      rw [List.lookup_cons, beq_false_of_ne h1]
      exact ih h2

/-- Looking a key up in an association list built by mapping a value function
over a key list. -/
theorem lookup_map_key (f : String → ℚ) (l : List String) (c : String) :
    (l.map (fun x => (x, f x))).lookup c =
      if c ∈ l then some (f c) else none := by
  by_cases hc : c ∈ l
  · rw [if_pos hc]
    exact List.lookup_graph f hc
  · rw [if_neg hc]
    refine lookup_eq_none_of_not_mem ?_
    simp only [List.map_map]
    simpa using hc

/-- The loop of returns.py lines 270-278 succeeds (the `assert` of line 277
never fires) when the accumulated keys and the plain currencies of the
positions are all distinct, and it extends `acc` with the plain
`(currency, number)` pairs in order. -/
theorem buildSingle_eq (positions : List Position) :
    ∀ acc : List (String × ℚ),
      (acc.map Prod.fst ++ plainCurrencies positions).Nodup →
      buildSingle positions acc = some (acc ++ plainPairs positions) := by
  induction positions with
  | nil =>
      intro acc _
      simp [buildSingle, plainPairs]
  | cons p rest ih =>
      intro acc hnd
      rw [buildSingle]
      rcases hc : p.lot.cost with _ | c
      · have hpc : plainCurrencies (p :: rest) =
            p.lot.currency :: plainCurrencies rest := by
          rw [plainCurrencies, List.filterMap_cons, hc]
          rfl
        have hpp : plainPairs (p :: rest) =
            (p.lot.currency, p.number) :: plainPairs rest := by
          rw [plainPairs, List.filterMap_cons, hc]
          rfl
        rw [hpc] at hnd
        have hnotin : p.lot.currency ∉ acc.map Prod.fst := by
          intro hmem
          have := (List.nodup_append.mp hnd).2.2
          exact this hmem (by simp)
        rw [lookup_eq_none_of_not_mem hnotin]
        simp only [Option.isSome_none, Bool.false_eq_true, if_false]
        have hnd2 : ((acc ++ [(p.lot.currency, p.number)]).map Prod.fst ++
            plainCurrencies rest).Nodup := by
          simp only [List.map_append, List.map_cons, List.map_nil]
          have heq : acc.map Prod.fst ++ [p.lot.currency] ++ plainCurrencies rest =
              acc.map Prod.fst ++ p.lot.currency :: plainCurrencies rest := by
            simp
          rw [heq]
          exact hnd
        rw [ih (acc ++ [(p.lot.currency, p.number)]) hnd2, hpp]
        simp
      · have hpc : plainCurrencies (p :: rest) = plainCurrencies rest := by
          rw [plainCurrencies, List.filterMap_cons, hc]
          rfl
        have hpp : plainPairs (p :: rest) = plainPairs rest := by
          rw [plainPairs, List.filterMap_cons, hc]
          rfl
        rw [hpc] at hnd
        rw [ih acc hnd, hpp]

/-- The returns association list produced for a pair of market-valued
boundary inventories: one entry per currency in the union, `1` when the begin
amount is zero (or absent), else `end / begin`. -/
def periodReturnsFor (mb me : Inventory) : List (String × ℚ) :=
  ((plainPairs mb).map Prod.fst ++ (plainPairs me).map Prod.fst).dedup.map
    (fun c =>
      let b := ((plainPairs mb).lookup c).getD 0
      let e := ((plainPairs me).lookup c).getD 0
      (c, if b = 0 then 1 else e / b))

/-- `periodReturnsOf` computes `periodReturnsFor` whenever both boundary
inventories satisfy the Inventory invariant (at most one plain position per
currency), which is exactly when the `assert` of line 277 cannot fire. -/
theorem periodReturnsOf_eq (mb me : Inventory)
    (hb : (plainCurrencies mb).Nodup) (he : (plainCurrencies me).Nodup) :
    periodReturnsOf mb me = some (periodReturnsFor mb me) := by
  have hsb := buildSingle_eq mb [] (by simpa using hb)
  have hse := buildSingle_eq me [] (by simpa using he)
  simp only [List.nil_append] at hsb hse
  rw [periodReturnsOf]
  rw [hsb, hse]
  rfl

/-- Lookup in the produced returns list: defined exactly for the union of the
plain currencies, with value `1` when the begin amount is zero, else the
ratio. -/
theorem periodReturnsFor_lookup (mb me : Inventory) (c : String) :
    (periodReturnsFor mb me).lookup c =
      if c ∈ plainCurrencies mb ∨ c ∈ plainCurrencies me then
        some (if ((plainPairs mb).lookup c).getD 0 = 0 then 1
              else ((plainPairs me).lookup c).getD 0 /
                   ((plainPairs mb).lookup c).getD 0)
      else none := by
  rw [periodReturnsFor, lookup_map_key]
  have hmem : c ∈ ((plainPairs mb).map Prod.fst ++
      (plainPairs me).map Prod.fst).dedup ↔
      (c ∈ plainCurrencies mb ∨ c ∈ plainCurrencies me) := by
    rw [List.mem_dedup, List.mem_append, plainPairs_keys, plainPairs_keys]
  by_cases h : c ∈ plainCurrencies mb ∨ c ∈ plainCurrencies me
  · rw [if_pos (hmem.mpr h), if_pos h]
  · rw [if_neg (fun hx => h (hmem.mp hx)), if_neg h]

/-- C2: for boundary balances whose market values satisfy the Inventory
invariant (at most one plain position per currency — guaranteed by
`Inventory` and required for the `assert` on line 277),
`compute_period_returns` returns a mapping defined for exactly the union of
the plain (non-cost) currencies present at either market-valued boundary;
for each such currency, when the begin amount is zero (including when the
currency is absent at the begin boundary) the return is `1`, otherwise it is
`end / begin`.  The market valuer (`prices.get_inventory_market_value`, not
under `src/`) is abstracted as the parameter `mktval`; `Decimal`/`float`
arithmetic is modelled exactly in `ℚ`. -/
theorem compute_period_returns_spec (date_begin date_end : Date)
    (balance_begin balance_end : Inventory)
    (mktval : Inventory → Date → Inventory)
    (hb : (plainCurrencies (mktval balance_begin date_begin)).Nodup)
    (he : (plainCurrencies (mktval balance_end date_end)).Nodup) :
    ∃ rets,
      compute_period_returns date_begin date_end balance_begin balance_end
          mktval =
        some (rets,
          (mktval balance_begin date_begin, mktval balance_end date_end)) ∧
      (∀ c, (rets.lookup c).isSome = true ↔
        (c ∈ plainCurrencies (mktval balance_begin date_begin) ∨
         c ∈ plainCurrencies (mktval balance_end date_end))) ∧
      (∀ c, c ∈ plainCurrencies (mktval balance_begin date_begin) ∨
            c ∈ plainCurrencies (mktval balance_end date_end) →
        rets.lookup c = some (
          if ((plainPairs (mktval balance_begin date_begin)).lookup c).getD 0
              = 0 then 1
          else ((plainPairs (mktval balance_end date_end)).lookup c).getD 0 /
            ((plainPairs (mktval balance_begin date_begin)).lookup c).getD 0))
    := by
  refine ⟨periodReturnsFor (mktval balance_begin date_begin)
    (mktval balance_end date_end), ?_, ?_, ?_⟩
  · rw [compute_period_returns, periodReturnsOf_eq _ _ hb he]
    rfl
  · intro c
    rw [periodReturnsFor_lookup]
    by_cases h : c ∈ plainCurrencies (mktval balance_begin date_begin) ∨
        c ∈ plainCurrencies (mktval balance_end date_end)
    · rw [if_pos h]
      simpa using h
    · rw [if_neg h]
      simpa using h
  · intro c h
    rw [periodReturnsFor_lookup, if_pos h]

/-- Witness for C2 at a concrete input: identity valuer, 100 USD at the
begin boundary and 110 USD at the end boundary. -/
theorem compute_period_returns_spec_witness :
    ∃ rets,
      compute_period_returns 0 1 [⟨⟨"USD", none⟩, 100⟩] [⟨⟨"USD", none⟩, 110⟩]
          (fun inv _ => inv) =
        some (rets, ([⟨⟨"USD", none⟩, 100⟩], [⟨⟨"USD", none⟩, 110⟩])) ∧
      (∀ c, (rets.lookup c).isSome = true ↔
        (c ∈ plainCurrencies [⟨⟨"USD", none⟩, 100⟩] ∨
         c ∈ plainCurrencies [⟨⟨"USD", none⟩, 110⟩])) ∧
      (∀ c, c ∈ plainCurrencies [⟨⟨"USD", none⟩, 100⟩] ∨
            c ∈ plainCurrencies [⟨⟨"USD", none⟩, 110⟩] →
        rets.lookup c = some (
          if ((plainPairs [⟨⟨"USD", none⟩, 100⟩]).lookup c).getD 0 = 0 then 1
          else ((plainPairs [⟨⟨"USD", none⟩, 110⟩]).lookup c).getD 0 /
            ((plainPairs [⟨⟨"USD", none⟩, 100⟩]).lookup c).getD 0)) :=
  compute_period_returns_spec 0 1 [⟨⟨"USD", none⟩, 100⟩]
    [⟨⟨"USD", none⟩, 110⟩] (fun inv _ => inv) (by decide) (by decide)

/-! ## Lemmas about `annualize_returns` -/

/-- C3: `annualize_returns` raises the invalid-period error iff the day span
is 0 and some currency's return differs from `1`; in every non-raising case
it returns, per currency, `fpow return exponent` where the exponent is
`365 / num_days`, defaulting to `1` when the span is 0 — so a 365-day span
(together with `fpow r 1 = r`, the IEEE identity `r ** 1.0 == r`) returns
every return unchanged.  IEEE-754 `**` is abstracted as `fpow`. -/
theorem annualize_returns_spec (fpow : ℚ → ℚ → ℚ)
    (returns : List (String × ℚ)) (date_first date_last : Date)
    (hpow : ∀ r, fpow r 1 = r) :
    (annualize_returns fpow returns date_first date_last =
        .error .invalidPeriod ↔
      (date_last - date_first = 0 ∧ ∃ p ∈ returns, p.2 ≠ 1)) ∧
    (annualize_returns fpow returns date_first date_last ≠
        .error .invalidPeriod →
      annualize_returns fpow returns date_first date_last =
        .ok (returns.map (fun p => (p.1, fpow p.2
          (if date_last - date_first = 0 then 1
           else 365 / ((date_last - date_first : ℤ) : ℚ)))))) ∧
    (date_last - date_first = 365 →
      annualize_returns fpow returns date_first date_last = .ok returns) := by
  have hmap : ∀ l : List (String × ℚ), l.map (fun p => (p.1, fpow p.2 1)) = l := by
    intro l
    induction l with
    | nil => rfl
    | cons p t iht =>
        obtain ⟨a, b⟩ := p
        rw [List.map_cons, iht, hpow]
  by_cases hd : date_last - date_first = 0
  · rw [annualize_returns]
    simp only [if_pos hd]
    rcases hall : returns.all (fun p => p.2 = 1) with _ | _
    · simp only [Bool.false_eq_true, if_false]
      refine ⟨?_, ?_, ?_⟩
      · constructor
        · intro _
          refine ⟨hd, ?_⟩
          rw [List.all_eq_false] at hall
          obtain ⟨p, hp, hne⟩ := hall
          exact ⟨p, hp, by simpa using hne⟩
        · intro _
          trivial
      · intro h
        exact absurd rfl h
      · intro h365
        rw [hd] at h365
        exact absurd h365 (by decide)
    · rw [if_pos rfl]
      refine ⟨?_, ?_, ?_⟩
      · constructor
        · intro h
          exact Except.noConfusion h
        · rintro ⟨-, p, hp, hne⟩
          rw [List.all_eq_true] at hall
          exact absurd (by simpa using hall p hp) hne
      · intro _
        rfl
      · intro h365
        rw [hd] at h365
        exact absurd h365 (by decide)
  · rw [annualize_returns]
    simp only [if_neg hd]
    refine ⟨?_, ?_, ?_⟩
    · constructor
      · intro h
        exact Except.noConfusion h
      · rintro ⟨h0, -⟩
        exact absurd h0 hd
    · intro _
      trivial
    · intro h365
      rw [h365]
      have hone : (365 : ℚ) / ((365 : ℤ) : ℚ) = 1 := by norm_num
      rw [hone, hmap]

/-- Witness for C3 at a concrete input: `fpow` the first projection (which
satisfies `fpow r 1 = r`), one 2x return, a 365-day span. -/
theorem annualize_returns_spec_witness :
    (annualize_returns (fun r _ => r) [("USD", 2)] 0 365 =
        .error .invalidPeriod ↔
      ((365 : Date) - 0 = 0 ∧ ∃ p ∈ [("USD", (2 : ℚ))], p.2 ≠ 1)) ∧
    (annualize_returns (fun r _ => r) [("USD", 2)] 0 365 ≠
        .error .invalidPeriod →
      annualize_returns (fun r _ => r) [("USD", 2)] 0 365 =
        .ok ([("USD", (2 : ℚ))].map (fun p => (p.1,
          (fun r _ => r : ℚ → ℚ → ℚ) p.2
          (if (365 : Date) - 0 = 0 then 1
           else 365 / (((365 : Date) - 0 : ℤ) : ℚ)))))) ∧
    ((365 : Date) - 0 = 365 →
      annualize_returns (fun r _ => r) [("USD", 2)] 0 365 =
        .ok [("USD", 2)]) :=
  annualize_returns_spec (fun r _ => r) [("USD", 2)] 0 365 (fun _ => rfl)

/-- C10: for a reversed date range (negative day span) `annualize_returns`
raises no error — the zero-length check applies only to a span of exactly 0
days — and silently annualizes with the negative exponent
`365 / num_days`. -/
theorem annualize_returns_negative_span (fpow : ℚ → ℚ → ℚ)
    (returns : List (String × ℚ)) (date_first date_last : Date)
    (h : date_last < date_first) :
    annualize_returns fpow returns date_first date_last =
      .ok (returns.map (fun p =>
        (p.1, fpow p.2 (365 / ((date_last - date_first : ℤ) : ℚ))))) := by
  rw [annualize_returns]
  rw [if_neg (sub_neg.mpr h).ne]

/-- Witness for C10 at a concrete input: a 7-day reversed range. -/
theorem annualize_returns_negative_span_witness :
    annualize_returns (fun r e => r * e) [("USD", 2)] 10 3 =
      .ok ([("USD", (2 : ℚ))].map (fun p =>
        (p.1, (fun r e => r * e : ℚ → ℚ → ℚ) p.2
          (365 / (((3 : Date) - 10 : ℤ) : ℚ))))) :=
  annualize_returns_negative_span (fun r e => r * e) [("USD", 2)] 10 3
    (by decide)

/-! ## Lemmas about `compute_returns` -/

/-- Looking up a currency present in some period's returns in the aggregated
totals gives exactly the product, over the periods in order, of that period's
return for the currency, defaulting a missing currency to `1`. -/
theorem totalReturns_lookup (all_returns : List (List (String × ℚ)))
    (c : String)
    (hc : c ∈ all_returns.flatMap (fun rets => rets.map Prod.fst)) :
    (totalReturns all_returns).lookup c =
      some ((all_returns.map (fun rets => (rets.lookup c).getD 1)).prod) := by
  rw [totalReturns, lookup_map_key, if_pos (List.mem_dedup.mpr hc)]
  congr 1
  rw [List.prod_eq_foldl, List.foldl_map]

/-- C4: whenever `compute_returns` succeeds, for every currency appearing in
the per-period returns of any period, the reported total return for that
currency is the product, over all periods in order, of that period's return
for the currency, with a period whose mapping lacks the currency contributing
the neutral factor `1`. -/
theorem compute_returns_total (entries : List Directive)
    (accounts_assets accounts_intflows : List String)
    (mktval : Inventory → Date → Inventory)
    (date_begin date_end : Option Date)
    (periods : List Period) (all_returns : List (List (String × ℚ)))
    (tot : List (String × ℚ)) (ds : Date × Date)
    (hseg : segment_periods entries accounts_assets accounts_intflows
        date_begin date_end = .ok periods)
    (hrets : periodsReturns mktval periods = some all_returns)
    (hcr : compute_returns entries accounts_assets accounts_intflows mktval
        date_begin date_end = .ok (tot, ds))
    (c : String)
    (hc : c ∈ all_returns.flatMap (fun rets => rets.map Prod.fst)) :
    tot.lookup c =
      some ((all_returns.map (fun rets => (rets.lookup c).getD 1)).prod) := by
  rcases periods with _ | ⟨p, ps⟩
  · rw [compute_returns] at hcr
    simp only [hseg, hrets] at hcr
    exact Except.noConfusion hcr
  · rw [compute_returns] at hcr
    simp only [hseg, hrets, Except.ok.injEq, Prod.mk.injEq] at hcr
    obtain ⟨h1, -⟩ := hcr
    rw [← h1]
    exact totalReturns_lookup all_returns c hc

/-- Witness for C4 at a concrete input: one degenerate period with equal
boundary balances of 100 USD, identity valuer — a single period return of `1`
for USD, totalling `1`. -/
theorem compute_returns_total_witness :
    ([("USD", (1 : ℚ))] : List (String × ℚ)).lookup "USD" =
      some (([[("USD", (1 : ℚ))]].map
        (fun rets => (rets.lookup "USD").getD 1)).prod) := by
  have hpf : compute_period_returns 5 5 exInv exInv (fun inv _ => inv) =
      some ([("USD", 1)], (exInv, exInv)) := by
    rw [compute_period_returns, periodReturnsOf_eq _ _ (by decide) (by decide)]
    have h : periodReturnsFor exInv exInv = [("USD", (100 : ℚ) / 100)] := by
      rfl
    rw [h]
    norm_num
  have hrets : periodsReturns (fun inv _ => inv) [⟨5, 5, exInv, exInv⟩] =
      some [[("USD", 1)]] := by
    rw [periodsReturns]
    simp only [List.mapM_cons, List.mapM_nil, hpf, Option.map_some',
      Option.some_bind, Option.pure_def]
    rfl
  have hseg : segment_periods [exTxn] ["A"] [] (some 5) none =
      .ok [⟨5, 5, exInv, exInv⟩] := by decide
  have hcr : compute_returns [exTxn] ["A"] [] (fun inv _ => inv)
      (some 5) none = .ok ([("USD", 1)], (5, 5)) := by
    rw [compute_returns]
    simp only [hseg, hrets]
    have htot : totalReturns [[("USD", (1 : ℚ))]] = [("USD", 1)] := by
      simp [totalReturns, List.lookup_cons]
    rw [htot]
    rfl
  exact compute_returns_total [exTxn] ["A"] [] (fun inv _ => inv) (some 5)
    none [⟨5, 5, exInv, exInv⟩] [[("USD", 1)]] [("USD", 1)] (5, 5)
    hseg hrets hcr "USD" (by decide)
